import Mathlib

/-!
Verification development for the `cli` command-line option parsing library
(single header `cli_parser.h`).  The C++ classes `cli::Parser`,
`cli::Parser::Option` and `cli::Parser::Option::Argument` are shallowly
embedded below; machine state mutated by `Parser::parse` (the `mProvided`
flag and the `mValue` field of each argument slot) is threaded explicitly
as a `List Opt` value indexed by position in the registration order, and
the alias index `mOptionsMap` (a `std::map<std::string, Option*>` whose
values point into `mOptionRefs`) is represented as an association list
from alias strings to positions in the registration order.
-/

set_option maxHeartbeats 1000000

namespace CliParser

/-- The four values of `cli::Parser::ParsingResult`. -/
inductive ParsingResult where
  | PARSED_OK
  | PARSED_HELP
  | PARSED_FAILED
  | PARSED_FAILED_VALIDATOR
deriving DecidableEq, Repr

export ParsingResult (PARSED_OK PARSED_HELP PARSED_FAILED PARSED_FAILED_VALIDATOR)

/-- `cli::Parser::Option::Argument`: a named argument slot.  `mValue` is
default-initialised to the empty string by the C++ constructor. -/
structure Argument where
  id : String
  desc : String
  value : String
deriving DecidableEq, Repr

/-- `cli::Parser::Option`.  The `mValidator` callback
(`std::function<bool(Option&)>`, possibly `nullptr`) receives the option
itself; the mutable state it can observe is the argument-slot list, so it
is embedded as an optional predicate on the slot list.  `mArgsMap` (built
once from the slot ids with first-insertion-wins `std::map::insert`) is
not stored: `Opt.value` below recovers it as the first slot carrying the
requested id, which agrees with the map because ids never change. -/
structure Opt where
  opts : List String
  description : String
  mandatory : Bool
  args : List Argument
  provided : Bool
  validator : Option (List Argument → Bool)

/-- `Option::checkMandatory`: `!mMandatory || mProvided`. -/
def Opt.checkMandatory (o : Opt) : Bool :=
  !o.mandatory || o.provided

/-- `Option::value(id)`: look the id up (first slot with that id, matching
the first-wins `mArgsMap`) and return its captured value; `none` models the
thrown `ParsingException("Invalid Argument")`. -/
def Opt.value (o : Opt) (id : String) : Option String :=
  (o.args.find? (fun a => a.id == id)).map Argument.value

/-- The alias index `mOptionsMap`, as an association list from alias to
position in the registration order `mOptionRefs`. -/
abbrev AliasMap := List (String × Nat)

/-- `std::map` subscript assignment `m[k] = v`: overwrite the entry for `k`
if present, otherwise append a fresh entry. -/
def mapInsert (m : AliasMap) (k : String) (v : Nat) : AliasMap :=
  match m with
  | [] => [(k, v)]
  | (k₁, v₁) :: rest =>
      if k₁ = k then (k, v) :: rest else (k₁, v₁) :: mapInsert rest k v

/-- `std::map` lookup (`find` / subscript read). -/
def mapFind (m : AliasMap) (k : String) : Option Nat :=
  match m with
  | [] => none
  | (k₁, v₁) :: rest => if k₁ = k then some v₁ else mapFind rest k

/-- `cli::Parser`: the ordered option collection `mOptionRefs` plus the
alias index `mOptionsMap` (indices into `options`). -/
structure Parser where
  program : String
  version : String
  description : String
  options : List Opt
  optionsMap : AliasMap

/-- A freshly constructed parser. -/
def emptyParser (program version description : String) : Parser :=
  { program := program, version := version, description := description,
    options := [], optionsMap := [] }

/-- `Parser::addOption`: push the option onto `mOptionRefs` and map every
one of its aliases to it (subscript assignment, so an alias already in the
index is silently overwritten). -/
def addOption (p : Parser) (o : Opt) : Parser :=
  { p with
    options := p.options ++ [o],
    optionsMap := o.opts.foldl (fun m a => mapInsert m a p.options.length) p.optionsMap }

/-- `Parser::addOptions`. -/
def addOptions (p : Parser) (os : List Opt) : Parser :=
  os.foldl addOption p

/-- The reserved help spellings tested at the top of the scan loop. -/
def isHelpToken (a : String) : Bool :=
  a == "--help" || a == "-h" || a == "/?"

/-- The inner `for(auto& innerArg : opt->mArgsRef)` loop, given the tokens
that remain after the flag token: each slot in declared order stores the
next token (`innerArg.mValue = argv[++i]`); when the tokens run out the
loop aborts, leaving the remaining slots untouched (the C++ returns
`PARSED_FAILED` at that point, which the caller below detects by comparing
lengths). -/
def fillValues : List Argument → List String → List Argument
  | [], _ => []
  | a :: as, [] => a :: as
  | a :: as, t :: ts => { a with value := t } :: fillValues as ts

/-- `opt->mValidator != nullptr && !opt->mValidator(*opt)`. -/
def validatorRejects (o : Opt) : Bool :=
  match o.validator with
  | none => false
  | some v => !v o.args

/-- One successful iteration of the scan loop of `Parser::parse` at token
`a` with remaining tokens `rest`: not a help token, alias resolves,
enough tokens for every slot, validator accepts.  Returns the tokens left
after the consumed sub-arguments and the updated registry state. -/
def stepOk (m : AliasMap) (a : String) (rest : List String) (opts : List Opt) :
    Option (List String × List Opt) :=
  if isHelpToken a then none
  else
    match mapFind m a with
    | none => none
    | some idx =>
      match opts[idx]? with
      | none => none
      | some o =>
        if rest.length < o.args.length then none
        else
          if validatorRejects { o with args := fillValues o.args rest } then none
          else
            some (rest.drop o.args.length,
              opts.set idx { o with args := fillValues o.args rest, provided := true })

/-- The scan loop of `Parser::parse` (`for (int i = 1; i < argc; ++i)`),
fuelled by the token count so that every construct stays kernel-reducible.
`Except.error` carries an early exit (result, registry state);
`Except.ok` is the state after the whole stream was consumed.  The
`opts.get? idx = none` branch is unreachable for registries built by
`addOption` (the index always points at a registered option, as the C++
pointer always points into `mOptionRefs`); it is mapped to a failure so
the function stays total. -/
def scanGo (m : AliasMap) : Nat → List String → List Opt →
    Except (ParsingResult × List Opt) (List Opt)
  | _, [], opts => .ok opts
  | 0, _ :: _, opts => .error (PARSED_FAILED, opts)
  | fuel + 1, a :: rest, opts =>
    if isHelpToken a then .error (PARSED_HELP, opts)
    else
      match mapFind m a with
      | none => .error (PARSED_FAILED, opts)
      | some idx =>
        match opts[idx]? with
        | none => .error (PARSED_FAILED, opts)
        | some o =>
          if rest.length < o.args.length then
            .error (PARSED_FAILED, opts.set idx { o with args := fillValues o.args rest })
          else
            if validatorRejects { o with args := fillValues o.args rest } then
              .error (PARSED_FAILED_VALIDATOR,
                opts.set idx { o with args := fillValues o.args rest })
            else
              scanGo m fuel (rest.drop o.args.length)
                (opts.set idx { o with args := fillValues o.args rest, provided := true })

/-- The scan with just enough fuel: every loop iteration consumes at
least the flag token, so `toks.length` iterations suffice. -/
def scanTokens (m : AliasMap) (toks : List String) (opts : List Opt) :
    Except (ParsingResult × List Opt) (List Opt) :=
  scanGo m toks.length toks opts

/-- The registry state carried by a scan outcome, whether the scan exited
early (`Except.error`) or consumed the whole stream (`Except.ok`): the
C++ mutates the registry in place, so the state is observable either
way. -/
def scanResultState : Except (ParsingResult × List Opt) (List Opt) → List Opt
  | .error (_, s) => s
  | .ok s => s

/-- The mandatory-check loop at the end of `Parser::parse`: the first
registered option failing `checkMandatory` (it is the one named in the
diagnostic on `std::cerr`), if any. -/
def firstMissingMandatory : List Opt → Option Opt
  | [] => none
  | o :: rest => if o.checkMandatory then firstMissingMandatory rest else some o

/-- `Parser::parse`.  The scan starts at `i = 1`, so element 0 of `argv`
is dropped; the mandatory pass runs only when the scan consumed the whole
stream.  The mutated registry is returned alongside the result. -/
def parse (p : Parser) (argv : List String) : ParsingResult × Parser :=
  match scanTokens p.optionsMap (argv.drop 1) p.options with
  | .error (r, s) => (r, { p with options := s })
  | .ok s =>
    match firstMissingMandatory s with
    | some _ => (PARSED_FAILED, { p with options := s })
    | none => (PARSED_OK, { p with options := s })

/-- `Parser::operator()(opt)`: resolve an alias through the index;
`none` models the thrown `ParsingException("Option Not Found!")`. -/
def Parser.lookupOpt (p : Parser) (al : String) : Option Opt :=
  (mapFind p.optionsMap al).bind fun i => p.options[i]?

/-! Concrete registry fixtures, used to instantiate the universally
quantified theorems below on closed inputs. -/

/-- A mandatory option `-m` with no argument slots and no validator. -/
def optMand : Opt :=
  { opts := ["-m"], description := "", mandatory := true, args := [],
    provided := false, validator := none }

/-- An optional `-f` with two argument slots and no validator. -/
def optPlain : Opt :=
  { opts := ["-f"], description := "", mandatory := false,
    args := [Argument.mk "a" "" "", Argument.mk "b" "" ""],
    provided := false, validator := none }

/-- An optional `-f` with one argument slot whose validator accepts
exactly the sub-argument `x`. -/
def optVal : Opt :=
  { opts := ["-f"], description := "", mandatory := false,
    args := [Argument.mk "a" "" ""],
    provided := false,
    validator := some (fun as => ((as.head?.map Argument.value).getD "") == "x") }

/-- Two distinct optional options competing for the alias `-x`. -/
def optX₁ : Opt :=
  { opts := ["-x"], description := "first", mandatory := false, args := [],
    provided := false, validator := none }

/-- Second claimant of the alias `-x`. -/
def optX₂ : Opt :=
  { opts := ["-x"], description := "second", mandatory := false, args := [],
    provided := false, validator := none }

/-- Registry containing only `optMand`. -/
def pMand : Parser := addOption (emptyParser "" "" "") optMand

/-- Registry containing only `optPlain`. -/
def pPlain : Parser := addOption (emptyParser "" "" "") optPlain

/-- Registry containing only `optVal`. -/
def pVal : Parser := addOption (emptyParser "" "" "") optVal

/-- Registry registering `optX₁` and then `optX₂` (duplicate alias). -/
def pDup : Parser := addOption (addOption (emptyParser "" "" "") optX₁) optX₂

/-- `optVal` after a successful first match that captured the
sub-argument `x`: slots filled, `provided` already true. -/
def optValX : Opt :=
  { optVal with args := [Argument.mk "a" "" "x"], provided := true }

/-- `optPlain` after a match that captured `v1` and `v2`. -/
def optPlainFilled : Opt :=
  { optPlain with
    args := [Argument.mk "a" "" "v1", Argument.mk "b" "" "v2"], provided := true }

/-- `std::string::find_last_of(' ')`: index of the last space, `none` for
`npos`. -/
def findLastSpace : List Char → Option Nat
  | [] => none
  | c :: rest =>
    match findLastSpace rest with
    | some i => some (i + 1)
    | none => if c = ' ' then some 0 else none

/-- The `while (copy.size() > width)` loop of `Parser::splitWords`.
Strings are embedded as character lists, `std::endl` as a newline
character.  `pad` is `padStrInUse` (empty on entry, `padStr` after the
first iteration).  One unit of fuel pays for one evaluation of the loop
condition; `none` models fuel exhaustion, i.e. divergence of the C++
loop (which happens exactly when `width = 0` and the text is longer than
`width`, since then neither branch shortens `copy`). -/
def splitWordsGo (width : Nat) (padStr : List Char) :
    Nat → List Char → List Char → Option (List Char)
  | 0, _, _ => none
  | fuel + 1, copy, pad =>
    if width < copy.length then
      match findLastSpace (copy.take width) with
      | some index =>
        (fun r => pad ++ (copy.take width).take index ++ '\n' :: r) <$>
          splitWordsGo width padStr fuel (copy.drop (index + 1)) padStr
      | none =>
        (fun r => pad ++ copy.take width ++ '\n' :: r) <$>
          splitWordsGo width padStr fuel (copy.drop width) padStr
    else
      some (pad ++ copy)

/-- `Parser::splitWords(value, width, padStr)`.  With `1 ≤ width` every
loop iteration removes at least one character, so `value.length + 1`
condition checks always suffice and the result is `some`. -/
def splitWords (value : List Char) (width : Nat) (padStr : List Char) :
    Option (List Char) :=
  splitWordsGo width padStr (value.length + 1) value []

/-- Modelled from the spec: the word-wrap algorithm of §4.3 as a list of
emitted lines — "repeatedly take the longest prefix of the remaining text
≤ width; if that prefix contains a space, break at the last space (the
break point is discarded, not re-emitted) and continue with the
remainder; if it contains no space, hard-break at the width boundary
mid-token".  Fuelled the same way as the implementation. -/
def wrapSpecLines (width : Nat) : Nat → List Char → Option (List (List Char))
  | 0, _ => none
  | fuel + 1, text =>
    if text.length ≤ width then some [text]
    else
      match findLastSpace (text.take width) with
      | some i =>
        (fun ls => (text.take width).take i :: ls) <$>
          wrapSpecLines width fuel (text.drop (i + 1))
      | none =>
        (fun ls => text.take width :: ls) <$> wrapSpecLines width fuel (text.drop width)

/-- Modelled from the spec: "The first emitted line uses no padding; every
subsequent wrapped line is prefixed with the padding string", with lines
separated by newline characters. -/
def joinPadded (padStr : List Char) : List (List Char) → List Char
  | [] => []
  | l :: ls => l ++ (ls.foldr (fun l₂ acc => '\n' :: padStr ++ l₂ ++ acc) [])

/-- Modelled from the spec (§4.3 / §8): wrap `value` at `width` with
continuation padding `padStr`. -/
def wrapSpec (value : List Char) (width : Nat) (padStr : List Char) :
    Option (List Char) :=
  joinPadded padStr <$> wrapSpecLines width (value.length + 1) value

/-- Width-`w` chunking of a character list (the shape the spec promises
for space-free input: hard breaks exactly at the width boundary). -/
def chunksGo (w : Nat) : Nat → List Char → List (List Char)
  | 0, l => [l]
  | fuel + 1, l => if l.length ≤ w then [l] else l.take w :: chunksGo w fuel (l.drop w)

/-- Width-`w` chunks of `l`, with enough fuel for `1 ≤ w`. -/
def chunks (w : Nat) (l : List Char) : List (List Char) :=
  chunksGo w (l.length + 1) l

/-- Reachability between scan-loop states: `ScanReaches m toks opts toks₂ opts₂`
holds when the scan started on `toks` with registry state `opts` performs
zero or more successful iterations and arrives at the loop head with
tokens `toks₂` and state `opts₂`. -/
inductive ScanReaches (m : AliasMap) :
    List String → List Opt → List String → List Opt → Prop
  | refl (toks : List String) (opts : List Opt) : ScanReaches m toks opts toks opts
  | step {a : String} {rest toks₂ : List String} {opts opts₂ s : List Opt}
      {t : List String} :
      stepOk m a rest opts = some (t, s) →
      ScanReaches m t s toks₂ opts₂ →
      ScanReaches m (a :: rest) opts toks₂ opts₂

/-- Along a run of successful scan iterations starting at the given state,
no flag token resolves to registry position `idx`. -/
inductive NoMatchFrom (m : AliasMap) (idx : Nat) : List String → List Opt → Prop
  | nil (opts : List Opt) : NoMatchFrom m idx [] opts
  | cons {a : String} {rest : List String} {opts : List Opt}
      {idx₁ : Nat} {t : List String} {s : List Opt} :
      mapFind m a = some idx₁ → idx₁ ≠ idx →
      stepOk m a rest opts = some (t, s) →
      NoMatchFrom m idx t s →
      NoMatchFrom m idx (a :: rest) opts

/-! ### Basic lemmas about the embedding's auxiliary functions -/

theorem fillValues_length (as : List Argument) (ts : List String) :
    (fillValues as ts).length = as.length := by
  induction as generalizing ts with
  | nil => simp [fillValues]
  | cons a as ih =>
    cases ts with
    | nil => simp [fillValues]
    | cons t ts => simp [fillValues, ih]

theorem fillValues_map_id (as : List Argument) (ts : List String) :
    (fillValues as ts).map Argument.id = as.map Argument.id := by
  induction as generalizing ts with
  | nil => simp [fillValues]
  | cons a as ih =>
    cases ts with
    | nil => simp [fillValues]
    | cons t ts => simp [fillValues, ih]

theorem fillValues_map_value_of_le (as : List Argument) (ts : List String)
    (h : as.length ≤ ts.length) :
    (fillValues as ts).map Argument.value = ts.take as.length := by
  induction as generalizing ts with
  | nil => simp [fillValues]
  | cons a as ih =>
    cases ts with
    | nil => simp at h
    | cons t ts =>
      simp only [List.length_cons, Nat.succ_le_succ_iff] at h
      simp [fillValues, ih ts h]

theorem fillValues_map_value_of_lt (as : List Argument) (ts : List String)
    (h : ts.length < as.length) :
    (fillValues as ts).map Argument.value =
      ts ++ (as.drop ts.length).map Argument.value := by
  induction as generalizing ts with
  | nil => simp at h
  | cons a as ih =>
    cases ts with
    | nil => simp [fillValues]
    | cons t ts =>
      simp only [List.length_cons, Nat.succ_lt_succ_iff] at h
      simp [fillValues, ih ts h]

theorem mapFind_insert_self (m : AliasMap) (k : String) (v : Nat) :
    mapFind (mapInsert m k v) k = some v := by
  induction m with
  | nil => simp [mapInsert, mapFind]
  | cons e rest ih =>
    obtain ⟨k₁, v₁⟩ := e
    by_cases h : k₁ = k
    · simp [mapInsert, mapFind, h]
    · simp [mapInsert, mapFind, h, ih]

theorem mapFind_insert_ne (m : AliasMap) (k k₂ : String) (v : Nat) (h : k₂ ≠ k) :
    mapFind (mapInsert m k v) k₂ = mapFind m k₂ := by
  have h₂ : ¬ k = k₂ := fun hh => h hh.symm
  induction m with
  | nil => simp [mapInsert, mapFind, h₂]
  | cons e rest ih =>
    obtain ⟨k₁, v₁⟩ := e
    by_cases h₁ : k₁ = k
    · subst h₁
      simp [mapInsert, mapFind, h₂]
    · simp [mapInsert, mapFind, h₁, ih]

theorem mapFind_foldl_insert_mem (ks : List String) (v : Nat) (al : String)
    (hmem : al ∈ ks) :
    ∀ m₀ : AliasMap, mapFind (ks.foldl (fun m k => mapInsert m k v) m₀) al = some v := by
  induction ks with
  | nil => cases hmem
  | cons k ks ih =>
    intro m₀
    by_cases h : al ∈ ks
    · simpa using ih h (mapInsert m₀ k v)
    · have hk : al = k := by
        rcases List.mem_cons.mp hmem with h₁ | h₁
        · exact h₁
        · exact absurd h₁ h
      subst hk
      have hnot : ∀ m₁ : AliasMap,
          mapFind (ks.foldl (fun m k => mapInsert m k v) m₁) al = mapFind m₁ al := by
        intro m₁
        clear ih hmem
        induction ks generalizing m₁ with
        | nil => rfl
        | cons k₂ ks₂ ih₂ =>
          have hal : al ≠ k₂ := by
            intro hh
            exact h (hh ▸ List.mem_cons_self k₂ ks₂)
          have hni : al ∉ ks₂ := fun hh => h (List.mem_cons_of_mem k₂ hh)
          simp only [List.foldl_cons]
          rw [ih₂ hni (mapInsert m₁ k₂ v), mapFind_insert_ne m₁ k₂ al v hal]
      simp only [List.foldl_cons]
      rw [hnot (mapInsert m₀ al v), mapFind_insert_self]

theorem mapFind_foldl_insert_not_mem (ks : List String) (v : Nat) (al : String)
    (hmem : al ∉ ks) (m₀ : AliasMap) :
    mapFind (ks.foldl (fun m k => mapInsert m k v) m₀) al = mapFind m₀ al := by
  induction ks generalizing m₀ with
  | nil => rfl
  | cons k ks ih =>
    have hal : al ≠ k := by
      intro hh
      exact hmem (hh ▸ List.mem_cons_self k ks)
    have hni : al ∉ ks := fun hh => hmem (List.mem_cons_of_mem k hh)
    simp only [List.foldl_cons]
    rw [ih hni (mapInsert m₀ k v), mapFind_insert_ne m₀ k al v hal]

theorem checkMandatory_false_iff (o : Opt) :
    o.checkMandatory = false ↔ o.mandatory = true ∧ o.provided = false := by
  cases hm : o.mandatory <;> cases hp : o.provided <;> simp [Opt.checkMandatory, hm, hp]

theorem checkMandatory_true_iff (o : Opt) :
    o.checkMandatory = true ↔ (o.mandatory = true → o.provided = true) := by
  cases hm : o.mandatory <;> cases hp : o.provided <;> simp [Opt.checkMandatory, hm, hp]

theorem firstMissingMandatory_none_iff (l : List Opt) :
    firstMissingMandatory l = none ↔ ∀ o ∈ l, o.checkMandatory = true := by
  induction l with
  | nil => simp [firstMissingMandatory]
  | cons o rest ih =>
    by_cases h : o.checkMandatory = true
    · simp [firstMissingMandatory, h, ih]
    · rw [firstMissingMandatory, if_neg h]
      constructor
      · intro hh
        exact absurd hh (Option.some_ne_none o)
      · intro hall
        exact absurd (hall o (List.mem_cons_self o rest)) h

theorem firstMissingMandatory_some_spec (l : List Opt) (o : Opt)
    (h : firstMissingMandatory l = some o) :
    ∃ i : Nat, l[i]? = some o ∧ o.checkMandatory = false ∧
      ∀ (j : Nat) (o₂ : Opt), j < i → l[j]? = some o₂ → o₂.checkMandatory = true := by
  induction l with
  | nil => simp [firstMissingMandatory] at h
  | cons o₁ rest ih =>
    by_cases h₁ : o₁.checkMandatory = true
    · rw [firstMissingMandatory, if_pos h₁] at h
      obtain ⟨i, hi, hbad, hfirst⟩ := ih h
      refine ⟨i + 1, by simpa using hi, hbad, ?_⟩
      intro j o₂ hj hget
      cases j with
      | zero =>
        simp only [List.getElem?_cons_zero, Option.some_inj] at hget
        exact hget ▸ h₁
      | succ j =>
        exact hfirst j o₂ (Nat.lt_of_succ_lt_succ hj) (by simpa using hget)
    · rw [firstMissingMandatory, if_neg h₁] at h
      cases h
      exact ⟨0, by simp, Bool.eq_false_iff.mpr h₁,
        fun j o₂ hj _ => absurd hj (Nat.not_lt_zero j)⟩

theorem firstMissingMandatory_isSome_of_bad (l : List Opt)
    (h : ∃ o ∈ l, o.checkMandatory = false) :
    ∃ o, firstMissingMandatory l = some o := by
  cases hf : firstMissingMandatory l with
  | none =>
    obtain ⟨o, hmem, hbad⟩ := h
    have := (firstMissingMandatory_none_iff l).mp hf o hmem
    rw [this] at hbad
    cases hbad
  | some o => exact ⟨o, rfl⟩

/-! ### The scan loop: fuel irrelevance and one-step equations -/

theorem scanGo_nil (m : AliasMap) (fuel : Nat) (opts : List Opt) :
    scanGo m fuel [] opts = .ok opts := by
  cases fuel <;> rfl

theorem stepOk_tokens_length {m : AliasMap} {a : String} {rest t : List String}
    {opts s : List Opt} (h : stepOk m a rest opts = some (t, s)) :
    t.length ≤ rest.length := by
  unfold stepOk at h
  split at h
  · cases h
  · split at h
    · cases h
    · split at h
      · cases h
      · split at h
        · cases h
        · split at h
          · cases h
          · cases h
            simp [List.length_drop]

theorem scanGo_succ_cons (m : AliasMap) (fuel : Nat) (a : String)
    (rest : List String) (opts : List Opt) :
    scanGo m (fuel + 1) (a :: rest) opts =
      (if isHelpToken a then .error (PARSED_HELP, opts)
       else
        match mapFind m a with
        | none => .error (PARSED_FAILED, opts)
        | some idx =>
          match opts[idx]? with
          | none => .error (PARSED_FAILED, opts)
          | some o =>
            if rest.length < o.args.length then
              .error (PARSED_FAILED, opts.set idx { o with args := fillValues o.args rest })
            else
              if validatorRejects { o with args := fillValues o.args rest } then
                .error (PARSED_FAILED_VALIDATOR,
                  opts.set idx { o with args := fillValues o.args rest })
              else
                scanGo m fuel (rest.drop o.args.length)
                  (opts.set idx
                    { o with args := fillValues o.args rest, provided := true })) := rfl

theorem scanGo_fuel_eq (m : AliasMap) :
    ∀ fuel₁ fuel₂ toks opts, toks.length ≤ fuel₁ → toks.length ≤ fuel₂ →
      scanGo m fuel₁ toks opts = scanGo m fuel₂ toks opts := by
  intro fuel₁
  induction fuel₁ with
  | zero =>
    intro fuel₂ toks opts h₁ _
    cases toks with
    | nil => rw [scanGo_nil, scanGo_nil]
    | cons a rest => simp at h₁
  | succ f₁ ih =>
    intro fuel₂ toks opts h₁ h₂
    cases toks with
    | nil => rw [scanGo_nil, scanGo_nil]
    | cons a rest =>
      cases fuel₂ with
      | zero => simp at h₂
      | succ f₂ =>
        rw [scanGo_succ_cons, scanGo_succ_cons]
        simp only [List.length_cons, Nat.succ_le_succ_iff] at h₁ h₂
        split
        · rfl
        · split
          · rfl
          · split
            · rfl
            · split
              · rfl
              · split
                · rfl
                · apply ih
                  · exact Nat.le_trans (by simp [List.length_drop, Nat.sub_le]) h₁
                  · exact Nat.le_trans (by simp [List.length_drop, Nat.sub_le]) h₂

theorem scanTokens_nil (m : AliasMap) (opts : List Opt) :
    scanTokens m [] opts = .ok opts := rfl

theorem scanTokens_help (a : String) (h : isHelpToken a = true) (m : AliasMap)
    (rest : List String) (opts : List Opt) :
    scanTokens m (a :: rest) opts = .error (PARSED_HELP, opts) := by
  rw [scanTokens, List.length_cons, scanGo_succ_cons, if_pos h]

theorem scanTokens_unknown {m : AliasMap} {a : String} (h : isHelpToken a = false)
    (hfind : mapFind m a = none) (rest : List String) (opts : List Opt) :
    scanTokens m (a :: rest) opts = .error (PARSED_FAILED, opts) := by
  rw [scanTokens, List.length_cons, scanGo_succ_cons]
  simp [h, hfind]

theorem scanTokens_missing_arg {m : AliasMap} {a : String} {idx : Nat} {o : Opt}
    {rest : List String} {opts : List Opt}
    (h : isHelpToken a = false) (hfind : mapFind m a = some idx)
    (hget : opts[idx]? = some o) (hlen : rest.length < o.args.length) :
    scanTokens m (a :: rest) opts =
      .error (PARSED_FAILED, opts.set idx { o with args := fillValues o.args rest }) := by
  rw [scanTokens, List.length_cons, scanGo_succ_cons]
  simp [h, hfind, hget, hlen]

theorem scanTokens_validator_fail {m : AliasMap} {a : String} {idx : Nat} {o : Opt}
    {rest : List String} {opts : List Opt}
    (h : isHelpToken a = false) (hfind : mapFind m a = some idx)
    (hget : opts[idx]? = some o) (hlen : o.args.length ≤ rest.length)
    (hval : validatorRejects { o with args := fillValues o.args rest } = true) :
    scanTokens m (a :: rest) opts =
      .error (PARSED_FAILED_VALIDATOR,
        opts.set idx { o with args := fillValues o.args rest }) := by
  rw [scanTokens, List.length_cons, scanGo_succ_cons]
  simp [h, hfind, hget, Nat.not_lt_of_le hlen, hval]

theorem scanTokens_step (m : AliasMap) {a : String} {idx : Nat} {o : Opt}
    {rest : List String} {opts : List Opt}
    (h : isHelpToken a = false) (hfind : mapFind m a = some idx)
    (hget : opts[idx]? = some o) (hlen : o.args.length ≤ rest.length)
    (hval : validatorRejects { o with args := fillValues o.args rest } = false) :
    scanTokens m (a :: rest) opts =
      scanTokens m (rest.drop o.args.length)
        (opts.set idx { o with args := fillValues o.args rest, provided := true }) := by
  rw [scanTokens, List.length_cons, scanGo_succ_cons]
  simp only [h, Bool.false_eq_true, if_false, hfind, hget, Nat.not_lt_of_le hlen, hval]
  rw [scanTokens]
  exact scanGo_fuel_eq m rest.length (rest.drop o.args.length).length
    (rest.drop o.args.length)
    (opts.set idx { o with args := fillValues o.args rest, provided := true })
    (by simp [List.length_drop, Nat.sub_le]) (Nat.le_refl _)

theorem stepOk_eq_some_iff {m : AliasMap} {a : String} {rest : List String}
    {opts : List Opt} {t : List String} {s : List Opt} :
    stepOk m a rest opts = some (t, s) ↔
      isHelpToken a = false ∧
      ∃ idx o, mapFind m a = some idx ∧ opts[idx]? = some o ∧
        o.args.length ≤ rest.length ∧
        validatorRejects { o with args := fillValues o.args rest } = false ∧
        t = rest.drop o.args.length ∧
        s = opts.set idx { o with args := fillValues o.args rest, provided := true } := by
  constructor
  · intro h
    unfold stepOk at h
    split at h
    · cases h
    · rename_i hhelp
      refine ⟨Bool.eq_false_iff.mpr hhelp, ?_⟩
      split at h
      · cases h
      · rename_i idx hfind
        split at h
        · cases h
        · rename_i o hget
          split at h
          · cases h
          · rename_i hlen
            split at h
            · cases h
            · rename_i hval
              cases h
              exact ⟨idx, o, hfind, hget, Nat.le_of_not_lt hlen,
                Bool.eq_false_iff.mpr hval, rfl, rfl⟩
  · rintro ⟨hhelp, idx, o, hfind, hget, hlen, hval, ht, hs⟩
    subst ht; subst hs
    unfold stepOk
    simp [hhelp, hfind, hget, Nat.not_lt_of_le hlen, hval]

theorem scanTokens_of_stepOk {m : AliasMap} {a : String} {rest t : List String}
    {opts s : List Opt} (h : stepOk m a rest opts = some (t, s)) :
    scanTokens m (a :: rest) opts = scanTokens m t s := by
  obtain ⟨hhelp, idx, o, hfind, hget, hlen, hval, ht, hs⟩ := stepOk_eq_some_iff.mp h
  subst ht; subst hs
  exact scanTokens_step m hhelp hfind hget hlen hval

theorem scanReaches_scanTokens {m : AliasMap} {toks t : List String}
    {opts s : List Opt} (h : ScanReaches m toks opts t s) :
    scanTokens m toks opts = scanTokens m t s := by
  induction h with
  | refl _ _ => rfl
  | step hstep _ ih => rw [scanTokens_of_stepOk hstep, ih]

/-! ### Scan outcomes and preservation of the `provided` flag -/

theorem getElem?_set_of_some {α : Type} {l : List α} {i : Nat} {o : α}
    (h : l[i]? = some o) (x : α) : (l.set i x)[i]? = some x := by
  have hlen : i < l.length := by
    cases hh : l[i]? with
    | none => rw [hh] at h; cases h
    | some _ => exact (List.getElem?_eq_some.mp hh).1
  simp [List.getElem?_eq_some, List.length_set, hlen, List.getElem_set_self]

theorem scanGo_error_result {m : AliasMap} :
    ∀ {fuel : Nat} {toks : List String} {opts s : List Opt} {r : ParsingResult},
      scanGo m fuel toks opts = .error (r, s) → r ≠ PARSED_OK := by
  intro fuel
  induction fuel with
  | zero =>
    intro toks opts s r h
    cases toks with
    | nil => cases h
    | cons a rest =>
      cases h
      intro hh
      cases hh
  | succ f ih =>
    intro toks opts s r h
    cases toks with
    | nil => cases h
    | cons a rest =>
      rw [scanGo_succ_cons] at h
      split at h
      · cases h; intro hh; cases hh
      · split at h
        · cases h; intro hh; cases hh
        · split at h
          · cases h; intro hh; cases hh
          · split at h
            · cases h; intro hh; cases hh
            · split at h
              · cases h; intro hh; cases hh
              · exact ih h

theorem scanGo_provided_mono (m : AliasMap) :
    ∀ (fuel : Nat) (toks : List String) (opts : List Opt) (idx : Nat) (o : Opt),
      opts[idx]? = some o → o.provided = true →
      ∃ o', (scanResultState (scanGo m fuel toks opts))[idx]? = some o' ∧
        o'.provided = true := by
  intro fuel
  induction fuel with
  | zero =>
    intro toks opts idx o hget hprov
    cases toks with
    | nil => exact ⟨o, hget, hprov⟩
    | cons a rest => exact ⟨o, hget, hprov⟩
  | succ f ih =>
    intro toks opts idx o hget hprov
    cases toks with
    | nil => exact ⟨o, hget, hprov⟩
    | cons a rest =>
      rw [scanGo_succ_cons]
      split
      · exact ⟨o, hget, hprov⟩
      · split
        · exact ⟨o, hget, hprov⟩
        · rename_i idx₁ _
          split
          · exact ⟨o, hget, hprov⟩
          · rename_i o₁ hget₁
            by_cases hidx : idx₁ = idx
            · subst hidx
              rw [hget₁] at hget
              cases hget
              split
              · exact ⟨_, getElem?_set_of_some hget₁ _, hprov⟩
              · split
                · exact ⟨_, getElem?_set_of_some hget₁ _, hprov⟩
                · exact ih _ _ _ _ (getElem?_set_of_some hget₁ _) rfl
            · have hset : ∀ x : Opt, (opts.set idx₁ x)[idx]? = some o := by
                intro x
                rw [List.getElem?_set_ne hidx]
                exact hget
              split
              · exact ⟨o, hset _, hprov⟩
              · split
                · exact ⟨o, hset _, hprov⟩
                · exact ih _ _ idx o (hset _) hprov

/-! ### `Parser::parse`: relating outcomes to the scan and the mandatory pass -/

theorem parse_of_scan_error (p : Parser) (argv : List String) {r : ParsingResult}
    {s : List Opt}
    (h : scanTokens p.optionsMap (argv.drop 1) p.options = .error (r, s)) :
    parse p argv = (r, { p with options := s }) := by
  simp only [parse]
  rw [h]

theorem parse_of_scan_ok_bad (p : Parser) (argv : List String) {s : List Opt} {o : Opt}
    (h : scanTokens p.optionsMap (argv.drop 1) p.options = .ok s)
    (hbad : firstMissingMandatory s = some o) :
    parse p argv = (PARSED_FAILED, { p with options := s }) := by
  simp only [parse]
  rw [h]
  simp only []
  rw [hbad]

theorem parse_of_scan_ok_good (p : Parser) (argv : List String) {s : List Opt}
    (h : scanTokens p.optionsMap (argv.drop 1) p.options = .ok s)
    (hgood : firstMissingMandatory s = none) :
    parse p argv = (PARSED_OK, { p with options := s }) := by
  simp only [parse]
  rw [h]
  simp only []
  rw [hgood]

theorem scanTokens_error_result {m : AliasMap} {toks : List String}
    {opts s : List Opt} {r : ParsingResult}
    (h : scanTokens m toks opts = .error (r, s)) : r ≠ PARSED_OK :=
  scanGo_error_result h

theorem parse_ok_inv {p : Parser} {argv : List String} {p' : Parser}
    (h : parse p argv = (PARSED_OK, p')) :
    scanTokens p.optionsMap (argv.drop 1) p.options = .ok p'.options ∧
      firstMissingMandatory p'.options = none ∧
      p' = { p with options := p'.options } := by
  cases hscan : scanTokens p.optionsMap (argv.drop 1) p.options with
  | error e =>
    obtain ⟨r, s⟩ := e
    rw [parse_of_scan_error p argv hscan] at h
    have hr : r = PARSED_OK := congrArg Prod.fst h
    exact absurd hr (scanTokens_error_result hscan)
  | ok s =>
    cases hfm : firstMissingMandatory s with
    | some o =>
      rw [parse_of_scan_ok_bad p argv hscan hfm] at h
      have hh : PARSED_FAILED = PARSED_OK := congrArg Prod.fst h
      cases hh
    | none =>
      rw [parse_of_scan_ok_good p argv hscan hfm] at h
      have hp : p' = { p with options := s } := (congrArg Prod.snd h).symm
      subst hp
      exact ⟨rfl, hfm, rfl⟩

/-! ### Claim theorems -/

/-- C9: `parse` never examines element 0 of the argument vector — the scan
starts at index 1 — so two argument vectors of the same length that differ
only in element 0 produce the same outcome and leave the registry in the
same state. -/
theorem parse_ignores_argv0 (p : Parser) (a₀ b₀ : String) (rest : List String) :
    parse p (a₀ :: rest) = parse p (b₀ :: rest) := rfl

/-- C3: when the scan reaches a token spelled `--help`, `-h` or `/?`, it
returns `PARSED_HELP` at once with the registry state untouched: the
result does not depend on the remaining tokens, the reserved check runs
before alias resolution (the theorem holds for every alias index `m`,
including ones that map those very spellings), and at `parse` level the
mandatory-option check is skipped. -/
theorem help_token_short_circuits :
    (∀ (m : AliasMap) (rest : List String) (opts : List Opt),
        scanTokens m ("--help" :: rest) opts = .error (PARSED_HELP, opts) ∧
        scanTokens m ("-h" :: rest) opts = .error (PARSED_HELP, opts) ∧
        scanTokens m ("/?" :: rest) opts = .error (PARSED_HELP, opts)) ∧
    (∀ (p : Parser) (a₀ : String) (rest : List String),
        parse p (a₀ :: "--help" :: rest) = (PARSED_HELP, p)) := by
  constructor
  · intro m rest opts
    exact ⟨scanTokens_help "--help" rfl m rest opts,
      scanTokens_help "-h" rfl m rest opts,
      scanTokens_help "/?" rfl m rest opts⟩
  · intro p a₀ rest
    exact parse_of_scan_error p (a₀ :: "--help" :: rest)
      (scanTokens_help "--help" rfl p.optionsMap rest p.options)

/-- C1: when the scan consumes the whole token stream (`Except.ok`), the
mandatory pass makes `parse` return `PARSED_FAILED` as soon as some
registered option is mandatory but not provided — the failing option
reported is the first such one in registration order — and `PARSED_OK`
when every mandatory option is provided. -/
theorem parse_mandatory_first_failure (p : Parser) (argv : List String) (s : List Opt)
    (hscan : scanTokens p.optionsMap (argv.drop 1) p.options = .ok s) :
    ((∃ o ∈ s, o.mandatory = true ∧ o.provided = false) →
        parse p argv = (PARSED_FAILED, { p with options := s }) ∧
        ∃ (i : Nat) (o : Opt), s[i]? = some o ∧ o.mandatory = true ∧ o.provided = false ∧
          ∀ (j : Nat) (o₂ : Opt), j < i → s[j]? = some o₂ →
            (o₂.mandatory = true → o₂.provided = true)) ∧
    ((∀ o ∈ s, o.mandatory = true → o.provided = true) →
        parse p argv = (PARSED_OK, { p with options := s })) := by
  constructor
  · intro hex
    obtain ⟨o, hmem, hm, hp⟩ := hex
    obtain ⟨o₁, ho₁⟩ := firstMissingMandatory_isSome_of_bad s
      ⟨o, hmem, (checkMandatory_false_iff o).mpr ⟨hm, hp⟩⟩
    refine ⟨parse_of_scan_ok_bad p argv hscan ho₁, ?_⟩
    obtain ⟨i, hi, hbad₁, hfirst⟩ := firstMissingMandatory_some_spec s o₁ ho₁
    obtain ⟨hm₁, hp₁⟩ := (checkMandatory_false_iff o₁).mp hbad₁
    exact ⟨i, o₁, hi, hm₁, hp₁, fun j o₂ hj hgetj =>
      (checkMandatory_true_iff o₂).mp (hfirst j o₂ hj hgetj)⟩
  · intro hall
    exact parse_of_scan_ok_good p argv hscan
      ((firstMissingMandatory_none_iff s).mpr fun o hmem =>
        (checkMandatory_true_iff o).mpr (hall o hmem))

/-- Witness for C1 at a closed input: the registry holding only the
mandatory `-m`, scanned over an empty tail, fails the mandatory pass. -/
theorem parse_mandatory_first_failure_witness :
    scanTokens pMand.optionsMap ((["prog"] : List String).drop 1) pMand.options =
        .ok [optMand] ∧
    parse pMand ["prog"] = (PARSED_FAILED, { pMand with options := [optMand] }) := by
  have h := parse_mandatory_first_failure pMand ["prog"] [optMand] rfl
  exact ⟨rfl, (h.1 ⟨optMand, by simp, rfl, rfl⟩).1⟩

/-- C2: a matched option with `k` declared argument slots fails at once
(`PARSED_FAILED`) when fewer than `k` tokens remain after the flag token;
with at least `k` remaining, exactly the next `k` tokens are stored into
the `k` slots in declared order (slot ids unchanged) and the scan
continues after them, leaving later tokens to be matched as flags. -/
theorem scan_consumes_argument_slots (m : AliasMap) (opts : List Opt) (a : String)
    (rest : List String) (idx : Nat) (o : Opt)
    (hhelp : isHelpToken a = false) (hfind : mapFind m a = some idx)
    (hget : opts[idx]? = some o) :
    (rest.length < o.args.length →
        scanTokens m (a :: rest) opts =
          .error (PARSED_FAILED,
            opts.set idx { o with args := fillValues o.args rest })) ∧
    (o.args.length ≤ rest.length →
        (fillValues o.args rest).map Argument.value = rest.take o.args.length ∧
        (fillValues o.args rest).map Argument.id = o.args.map Argument.id ∧
        scanTokens m (a :: rest) opts =
          (if validatorRejects { o with args := fillValues o.args rest } = true then
            .error (PARSED_FAILED_VALIDATOR,
              opts.set idx { o with args := fillValues o.args rest })
          else
            scanTokens m (rest.drop o.args.length)
              (opts.set idx
                { o with args := fillValues o.args rest, provided := true }))) := by
  constructor
  · intro hlen
    exact scanTokens_missing_arg hhelp hfind hget hlen
  · intro hlen
    refine ⟨fillValues_map_value_of_le o.args rest hlen, fillValues_map_id o.args rest, ?_⟩
    cases hval : validatorRejects { o with args := fillValues o.args rest } with
    | true =>
      rw [if_pos rfl]
      exact scanTokens_validator_fail hhelp hfind hget hlen hval
    | false =>
      rw [if_neg Bool.false_ne_true]
      exact scanTokens_step m hhelp hfind hget hlen hval

/-- Witness for C2 at a closed input: `-f` declares two slots; three
trailing tokens fill the first two in order and leave `t3` for further
matching. -/
theorem scan_consumes_argument_slots_witness :
    isHelpToken "-f" = false ∧
    mapFind pPlain.optionsMap "-f" = some 0 ∧
    ([optPlain] : List Opt)[0]? = some optPlain ∧
    optPlain.args.length ≤ (["t1", "t2", "t3"] : List String).length ∧
    (fillValues optPlain.args ["t1", "t2", "t3"]).map Argument.value = ["t1", "t2"] ∧
    scanTokens pPlain.optionsMap ["-f", "t1", "t2", "t3"] [optPlain] =
      scanTokens pPlain.optionsMap ["t3"]
        [{ optPlain with
            args := fillValues optPlain.args ["t1", "t2", "t3"],
            provided := true }] := by
  have h := (scan_consumes_argument_slots pPlain.optionsMap [optPlain] "-f"
    ["t1", "t2", "t3"] 0 optPlain rfl rfl rfl).2 (by decide)
  exact ⟨rfl, rfl, rfl, by decide, h.1, h.2.2⟩

/-! ### Last-occurrence analysis of a completed scan (round-trip support) -/

theorem find?_id_of_nodup {as : List Argument}
    (hnd : (as.map Argument.id).Nodup) {j : Nat} {aj : Argument}
    (hj : as[j]? = some aj) :
    as.find? (fun a => a.id == aj.id) = some aj := by
  induction as generalizing j with
  | nil => cases hj
  | cons a as ih =>
    rw [List.map_cons, List.nodup_cons] at hnd
    cases j with
    | zero =>
      simp only [List.getElem?_cons_zero, Option.some_inj] at hj
      subst hj
      exact List.find?_cons_of_pos _ (by simp)
    | succ j =>
      simp only [List.getElem?_cons_succ] at hj
      have hmem : aj ∈ as := by
        rcases List.getElem?_eq_some.mp hj with ⟨hlt, heq⟩
        exact heq ▸ List.getElem_mem hlt
      have hne : ¬ (a.id == aj.id) = true := by
        intro hh
        exact hnd.1 (beq_iff_eq.mp hh ▸ List.mem_map_of_mem Argument.id hmem)
      rw [@List.find?_cons_of_neg _ (fun x => x.id == aj.id) a as hne]
      exact ih hnd.2 hj

theorem value_of_nodup {o : Opt} (hnd : (o.args.map Argument.id).Nodup)
    {j : Nat} {aj : Argument} (hj : o.args[j]? = some aj) :
    o.value aj.id = some aj.value := by
  rw [Opt.value, find?_id_of_nodup hnd hj]
  rfl

theorem scanGo_ok_last_match (m : AliasMap) :
    ∀ (fuel : Nat) (toks : List String) (opts opts' : List Opt),
      scanGo m fuel toks opts = .ok opts' →
      ∀ (idx : Nat) (o : Opt), opts[idx]? = some o →
      ∃ o', opts'[idx]? = some o' ∧
        ((o' = o ∧ NoMatchFrom m idx toks opts) ∨
         (∃ (pre : List String) (a : String) (rest : List String)
            (s : List Opt) (oS : Opt),
            toks = pre ++ a :: rest ∧
            ScanReaches m toks opts (a :: rest) s ∧
            mapFind m a = some idx ∧
            s[idx]? = some oS ∧
            oS.args.map Argument.id = o.args.map Argument.id ∧
            oS.args.length ≤ rest.length ∧
            o'.provided = true ∧
            o'.args.map Argument.id = o.args.map Argument.id ∧
            o'.args.map Argument.value = rest.take oS.args.length ∧
            NoMatchFrom m idx (rest.drop oS.args.length)
              (s.set idx
                { oS with
                  args := fillValues oS.args rest, provided := true }))) := by
  intro fuel
  induction fuel with
  | zero =>
    intro toks opts opts' h idx o hget
    cases toks with
    | nil =>
      cases h
      exact ⟨o, hget, Or.inl ⟨rfl, NoMatchFrom.nil opts⟩⟩
    | cons a rest => cases h
  | succ f ih =>
    intro toks opts opts' h idx o hget
    cases toks with
    | nil =>
      cases h
      exact ⟨o, hget, Or.inl ⟨rfl, NoMatchFrom.nil opts⟩⟩
    | cons a rest =>
      rw [scanGo_succ_cons] at h
      split at h
      · cases h
      · rename_i hhelp
        split at h
        · cases h
        · rename_i idx₁ hfind₁
          split at h
          · cases h
          · rename_i o₁ hget₁
            split at h
            · cases h
            · rename_i hlen₁
              split at h
              · cases h
              · rename_i hval₁
                have hlen₁ : o₁.args.length ≤ rest.length := Nat.le_of_not_lt hlen₁
                have hstep : stepOk m a rest opts =
                    some (rest.drop o₁.args.length,
                      opts.set idx₁
                        { o₁ with
                          args := fillValues o₁.args rest, provided := true }) :=
                  stepOk_eq_some_iff.mpr ⟨Bool.eq_false_iff.mpr hhelp,
                    idx₁, o₁, hfind₁, hget₁, hlen₁,
                    Bool.eq_false_iff.mpr hval₁, rfl, rfl⟩
                by_cases hidx : idx₁ = idx
                · subst hidx
                  rw [hget₁] at hget
                  cases hget
                  have hgetm : (opts.set idx₁
                      { o with
                        args := fillValues o.args rest, provided := true })[idx₁]? =
                      some
                        { o with
                          args := fillValues o.args rest, provided := true } :=
                    getElem?_set_of_some hget₁ _
                  obtain ⟨o', hget', hdisj⟩ := ih _ _ _ h idx₁ _ hgetm
                  refine ⟨o', hget', Or.inr ?_⟩
                  rcases hdisj with ⟨ho', hnm⟩ | ⟨pre₂, a₂, rest₂, s₂, oS₂, htoks₂,
                      hreach₂, hfind₂, hgetS₂, hidsS₂, hlenS₂, hprov₂, hids₂,
                      hvals₂, hnm₂⟩
                  · subst ho'
                    exact ⟨[], a, rest, opts, o, rfl,
                      ScanReaches.refl _ _, hfind₁, hget₁, rfl, hlen₁, rfl,
                      fillValues_map_id o.args rest,
                      fillValues_map_value_of_le o.args rest hlen₁, hnm⟩
                  · refine ⟨a :: (rest.take o.args.length ++ pre₂), a₂, rest₂, s₂,
                      oS₂, ?_, ScanReaches.step hstep hreach₂, hfind₂, hgetS₂, ?_,
                      hlenS₂, hprov₂, ?_, hvals₂, hnm₂⟩
                    · rw [List.cons_append, List.append_assoc, ← htoks₂,
                        List.take_append_drop]
                    · rw [hidsS₂]
                      exact fillValues_map_id o.args rest
                    · rw [hids₂]
                      exact fillValues_map_id o.args rest
                · have hgetm : (opts.set idx₁
                      { o₁ with
                        args := fillValues o₁.args rest, provided := true })[idx]? =
                      some o := by
                    rw [List.getElem?_set_ne hidx]
                    exact hget
                  obtain ⟨o', hget', hdisj⟩ := ih _ _ _ h idx o hgetm
                  refine ⟨o', hget', ?_⟩
                  rcases hdisj with ⟨ho', hnm⟩ | ⟨pre₂, a₂, rest₂, s₂, oS₂, htoks₂,
                      hreach₂, hfind₂, hgetS₂, hidsS₂, hlenS₂, hprov₂, hids₂,
                      hvals₂, hnm₂⟩
                  · exact Or.inl ⟨ho',
                      NoMatchFrom.cons hfind₁ hidx hstep hnm⟩
                  · refine Or.inr ⟨a :: (rest.take o₁.args.length ++ pre₂), a₂,
                      rest₂, s₂, oS₂, ?_, ScanReaches.step hstep hreach₂, hfind₂,
                      hgetS₂, hidsS₂, hlenS₂, hprov₂, hids₂, hvals₂, hnm₂⟩
                    rw [List.cons_append, List.append_assoc, ← htoks₂,
                      List.take_append_drop]

/-- Counterexample to C4 as stated: on `["prog", "-f", "x", "-f", "y"]`
against the registry holding `optVal` (validator accepts only `x`), the
second occurrence fails the validator and `parse` returns
`PARSED_FAILED_VALIDATOR`, yet the option is still marked provided
(`mProvided` was set by the first occurrence and is never cleared), so
the claim's "the option is left marked not-provided (provided = false)"
is false. -/
theorem validator_failure_provided_cex :
    (parse pVal ["prog", "-f", "x", "-f", "y"]).1 = PARSED_FAILED_VALIDATOR ∧
    ((parse pVal ["prog", "-f", "x", "-f", "y"]).2.options[0]?).map Opt.provided =
      some true := by
  exact ⟨rfl, rfl⟩

/-- C4 (amended): for every occurrence of an option that declares a
validator, the validator is invoked after that occurrence's argument
slots are filled, and if it returns false the scan returns
`PARSED_FAILED_VALIDATOR` immediately with the freshly filled values in
place; the `provided` flag is not modified by the failing occurrence — in
particular an option never successfully matched before remains
not-provided, while one already provided stays provided. -/
theorem validator_failure_keeps_prior_provided (m : AliasMap) (opts : List Opt)
    (a : String) (rest : List String) (idx : Nat) (o : Opt)
    (hhelp : isHelpToken a = false) (hfind : mapFind m a = some idx)
    (hget : opts[idx]? = some o) (hlen : o.args.length ≤ rest.length)
    (hval : validatorRejects { o with args := fillValues o.args rest } = true) :
    scanTokens m (a :: rest) opts =
      .error (PARSED_FAILED_VALIDATOR,
        opts.set idx { o with args := fillValues o.args rest }) ∧
    ({ o with args := fillValues o.args rest } : Opt).provided = o.provided := by
  exact ⟨scanTokens_validator_fail hhelp hfind hget hlen hval, rfl⟩

/-- Witness for C4's amended theorem at a closed input: the registry
holding `optVal`, scanned at `-f y`; the validator sees the fresh value
`y` and rejects. -/
theorem validator_failure_keeps_prior_provided_witness :
    isHelpToken "-f" = false ∧
    mapFind pVal.optionsMap "-f" = some 0 ∧
    ([optVal] : List Opt)[0]? = some optVal ∧
    optVal.args.length ≤ (["y"] : List String).length ∧
    validatorRejects { optVal with args := fillValues optVal.args ["y"] } = true ∧
    scanTokens pVal.optionsMap ["-f", "y"] [optVal] =
      .error (PARSED_FAILED_VALIDATOR,
        ([optVal] : List Opt).set 0 { optVal with args := fillValues optVal.args ["y"] }) := by
  have h := validator_failure_keeps_prior_provided pVal.optionsMap [optVal] "-f" ["y"]
    0 optVal rfl rfl rfl (by decide) (by decide)
  exact ⟨rfl, rfl, rfl, by decide, by decide, h.1⟩

/-- C6: an option that is matched again after already having been provided
has its argument slots re-consumed — the stored values are exactly the
later occurrence's tokens, regardless of the earlier values — and its
validator re-invoked on the fresh values; `provided` stays true: the
re-matching step keeps it true, and (last conjunct) once an option's
`provided` flag is true it is still true in the state any scan run leaves
behind, whether that run completes or exits early. -/
theorem rematch_overwrites_and_revalidates (m : AliasMap) (opts : List Opt)
    (a : String) (rest : List String) (idx : Nat) (o : Opt)
    (hhelp : isHelpToken a = false) (hfind : mapFind m a = some idx)
    (hget : opts[idx]? = some o) (hprov : o.provided = true)
    (hlen : o.args.length ≤ rest.length) :
    (fillValues o.args rest).map Argument.value = rest.take o.args.length ∧
    scanTokens m (a :: rest) opts =
      (if validatorRejects { o with args := fillValues o.args rest } = true then
        .error (PARSED_FAILED_VALIDATOR,
          opts.set idx { o with args := fillValues o.args rest })
      else
        scanTokens m (rest.drop o.args.length)
          (opts.set idx { o with args := fillValues o.args rest, provided := true })) ∧
    ({ o with args := fillValues o.args rest } : Opt).provided = true ∧
    (∀ (fuel : Nat) (toks : List String),
        ∃ o', (scanResultState (scanGo m fuel toks opts))[idx]? = some o' ∧
          o'.provided = true) := by
  refine ⟨fillValues_map_value_of_le o.args rest hlen, ?_, hprov, ?_⟩
  · cases hval : validatorRejects { o with args := fillValues o.args rest } with
    | true =>
      rw [if_pos rfl]
      exact scanTokens_validator_fail hhelp hfind hget hlen hval
    | false =>
      rw [if_neg Bool.false_ne_true]
      exact scanTokens_step m hhelp hfind hget hlen hval
  · intro fuel toks
    exact scanGo_provided_mono m fuel toks opts idx o hget hprov

/-- Witness for C6 at a closed input: `optValX` is already provided with
captured value `x`; re-matching on `-f y` overwrites the slot with `y`,
re-runs the validator (which now rejects), and `provided` stays true. -/
theorem rematch_overwrites_and_revalidates_witness :
    isHelpToken "-f" = false ∧
    mapFind pVal.optionsMap "-f" = some 0 ∧
    ([optValX] : List Opt)[0]? = some optValX ∧
    optValX.provided = true ∧
    optValX.args.length ≤ (["y"] : List String).length ∧
    (fillValues optValX.args ["y"]).map Argument.value = ["y"] ∧
    ({ optValX with args := fillValues optValX.args ["y"] } : Opt).provided = true ∧
    (∃ o', (scanResultState (scanGo pVal.optionsMap 1 [] [optValX]))[0]? = some o' ∧
      o'.provided = true) := by
  have h := rematch_overwrites_and_revalidates pVal.optionsMap [optValX] "-f" ["y"]
    0 optValX rfl rfl rfl rfl (by decide)
  exact ⟨rfl, rfl, rfl, rfl, by decide, h.1, h.2.2.1, h.2.2.2 1 []⟩

/-- Counterexample to C7 as stated: registering `optX₂`, whose alias `-x`
is already mapped to `optX₁`, does not fail fatally — the registration
succeeds (both options end up in the ordered collection) and the alias
index entry is silently overwritten so that `-x` now resolves to the
later option. -/
theorem duplicate_alias_shadows_cex :
    pDup.options.length = 2 ∧
    mapFind pDup.optionsMap "-x" = some 1 ∧
    pDup.lookupOpt "-x" = some optX₂ := by
  exact ⟨rfl, rfl, rfl⟩

/-- C7 (amended): for every registry state and every option holding an
alias already present in the registry's alias index, `addOption` does not
fail: it appends the option to the ordered collection and overwrites the
index entry, so the duplicate alias thereafter resolves to the newly
registered option (the earlier registration is silently shadowed,
last-wins). -/
theorem addOption_duplicate_last_wins (p : Parser) (o : Opt) (al : String)
    (i : Nat) (_hdup : mapFind p.optionsMap al = some i) (hmem : al ∈ o.opts) :
    (addOption p o).options = p.options ++ [o] ∧
    mapFind (addOption p o).optionsMap al = some p.options.length ∧
    (addOption p o).lookupOpt al = some o := by
  have hfind : mapFind (addOption p o).optionsMap al = some p.options.length :=
    mapFind_foldl_insert_mem o.opts p.options.length al hmem p.optionsMap
  refine ⟨rfl, hfind, ?_⟩
  rw [Parser.lookupOpt, hfind]
  show ((addOption p o).options)[p.options.length]? = some o
  show (p.options ++ [o])[p.options.length]? = some o
  rw [List.getElem?_append_right (Nat.le_refl _)]
  simp

/-- Witness for C7's amended theorem at a closed input: `pDup`'s first
half (`optX₁` registered) plus `optX₂`. -/
theorem addOption_duplicate_last_wins_witness :
    mapFind (addOption (emptyParser "" "" "") optX₁).optionsMap "-x" = some 0 ∧
    "-x" ∈ optX₂.opts ∧
    pDup.options.length = 2 ∧
    mapFind pDup.optionsMap "-x" = some 1 ∧
    pDup.lookupOpt "-x" = some optX₂ := by
  have h := addOption_duplicate_last_wins (addOption (emptyParser "" "" "") optX₁)
    optX₂ "-x" 0 rfl (by simp [optX₂])
  refine ⟨rfl, by simp [optX₂], ?_, ?_, ?_⟩
  · rw [show pDup = addOption (addOption (emptyParser "" "" "") optX₁) optX₂ from rfl,
      h.1]
    rfl
  · exact h.2.1
  · exact h.2.2

/-- C10: `parse` is not atomic on failure — every mutation made before the
failure point persists in the returned registry state.  Conjuncts: a run
of successful iterations determines the scan's behaviour from the reached
state (so the state returned by a later failure contains all earlier
mutations, including `provided` flags of options fully matched earlier);
an unknown-token failure returns the current state as is; a
missing-argument failure keeps the slots of the failing occurrence that
were filled before the tokens ran out (the remaining slots keep their old
values, `provided` untouched); a validator failure keeps all freshly
stored values; and `parse` surfaces the scan's failure state verbatim. -/
theorem parse_failure_preserves_mutations :
    (∀ (m : AliasMap) (toks t : List String) (opts s : List Opt),
        ScanReaches m toks opts t s → scanTokens m toks opts = scanTokens m t s) ∧
    (∀ (m : AliasMap) (a : String) (rest : List String) (s : List Opt),
        isHelpToken a = false → mapFind m a = none →
        scanTokens m (a :: rest) s = .error (PARSED_FAILED, s)) ∧
    (∀ (m : AliasMap) (a : String) (rest : List String) (s : List Opt)
        (idx : Nat) (o : Opt),
        isHelpToken a = false → mapFind m a = some idx → s[idx]? = some o →
        rest.length < o.args.length →
        scanTokens m (a :: rest) s =
          .error (PARSED_FAILED, s.set idx { o with args := fillValues o.args rest }) ∧
        (fillValues o.args rest).map Argument.value =
          rest ++ (o.args.drop rest.length).map Argument.value ∧
        ({ o with args := fillValues o.args rest } : Opt).provided = o.provided) ∧
    (∀ (m : AliasMap) (a : String) (rest : List String) (s : List Opt)
        (idx : Nat) (o : Opt),
        isHelpToken a = false → mapFind m a = some idx → s[idx]? = some o →
        o.args.length ≤ rest.length →
        validatorRejects { o with args := fillValues o.args rest } = true →
        scanTokens m (a :: rest) s =
          .error (PARSED_FAILED_VALIDATOR,
            s.set idx { o with args := fillValues o.args rest })) ∧
    (∀ (p : Parser) (argv : List String) (r : ParsingResult) (s : List Opt),
        scanTokens p.optionsMap (argv.drop 1) p.options = .error (r, s) →
        parse p argv = (r, { p with options := s })) := by
  refine ⟨?_, ?_, ?_, ?_, ?_⟩
  · intro m toks t opts s h
    exact scanReaches_scanTokens h
  · intro m a rest s hhelp hfind
    exact scanTokens_unknown hhelp hfind rest s
  · intro m a rest s idx o hhelp hfind hget hlen
    exact ⟨scanTokens_missing_arg hhelp hfind hget hlen,
      fillValues_map_value_of_lt o.args rest hlen, rfl⟩
  · intro m a rest s idx o hhelp hfind hget hlen hval
    exact scanTokens_validator_fail hhelp hfind hget hlen hval
  · intro p argv r s h
    exact parse_of_scan_error p argv h

/-- Witness for C10 at a closed input: `-f` declares two slots but only
one token remains; the failure state keeps the first slot's fresh value
`t1` and the untouched second slot. -/
theorem parse_failure_preserves_mutations_witness :
    isHelpToken "-f" = false ∧
    mapFind pPlain.optionsMap "-f" = some 0 ∧
    ([optPlain] : List Opt)[0]? = some optPlain ∧
    (["t1"] : List String).length < optPlain.args.length ∧
    scanTokens pPlain.optionsMap ["-f", "t1"] [optPlain] =
      .error (PARSED_FAILED,
        ([optPlain] : List Opt).set 0 { optPlain with args := fillValues optPlain.args ["t1"] }) ∧
    (fillValues optPlain.args ["t1"]).map Argument.value = ["t1", ""] := by
  have h := parse_failure_preserves_mutations.2.2.1 pPlain.optionsMap "-f" ["t1"]
    [optPlain] 0 optPlain rfl rfl rfl (by decide)
  exact ⟨rfl, rfl, rfl, by decide, h.1, by decide⟩

/-! ### Word wrapping: `Parser::splitWords` -/

theorem findLastSpace_lt_length {l : List Char} {i : Nat}
    (h : findLastSpace l = some i) : i < l.length := by
  induction l generalizing i with
  | nil => cases h
  | cons c rest ih =>
    rw [findLastSpace] at h
    cases hr : findLastSpace rest with
    | some j =>
      simp only [hr, Option.some_inj] at h
      subst h
      exact Nat.succ_lt_succ (ih hr)
    | none =>
      simp only [hr] at h
      by_cases hc : c = ' '
      · rw [if_pos hc] at h
        simp only [Option.some_inj] at h
        subst h
        simp
      · rw [if_neg hc] at h
        cases h

theorem findLastSpace_eq_none_of_not_mem {l : List Char} (h : ' ' ∉ l) :
    findLastSpace l = none := by
  induction l with
  | nil => rfl
  | cons c rest ih =>
    have hc : ¬ c = ' ' := by
      intro hh
      exact h (hh ▸ List.mem_cons_self c rest)
    have hr : ' ' ∉ rest := fun hh => h (List.mem_cons_of_mem c hh)
    rw [findLastSpace, ih hr]
    simp [hc]

theorem joinPadded_cons_of_ne_nil (padStr : List Char) (l : List Char)
    {ls : List (List Char)} (h : ls ≠ []) :
    joinPadded padStr (l :: ls) = l ++ '\n' :: padStr ++ joinPadded padStr ls := by
  cases ls with
  | nil => exact absurd rfl h
  | cons l₂ ls₂ => simp [joinPadded]

theorem wrapSpecLines_ne_nil {width fuel : Nat} {text : List Char}
    {ls : List (List Char)} (h : wrapSpecLines width fuel text = some ls) :
    ls ≠ [] := by
  cases fuel with
  | zero => cases h
  | succ f =>
    rw [wrapSpecLines] at h
    by_cases hlen : text.length ≤ width
    · rw [if_pos hlen] at h
      simp only [Option.some_inj] at h
      subst h
      simp
    · rw [if_neg hlen] at h
      cases hfind : findLastSpace (text.take width) with
      | some i =>
        simp only [hfind] at h
        cases hrec : wrapSpecLines width f (text.drop (i + 1)) with
        | none =>
          rw [hrec] at h
          cases h
        | some ls₂ =>
          rw [hrec] at h
          simp at h
          rw [← h]
          simp
      | none =>
        simp only [hfind] at h
        cases hrec : wrapSpecLines width f (text.drop width) with
        | none =>
          rw [hrec] at h
          cases h
        | some ls₂ =>
          rw [hrec] at h
          simp at h
          rw [← h]
          simp

theorem splitWordsGo_eq_wrapSpecLines (width : Nat) (padStr : List Char) :
    ∀ (fuel : Nat) (copy pad : List Char),
      splitWordsGo width padStr fuel copy pad =
        (fun ls => pad ++ joinPadded padStr ls) <$> wrapSpecLines width fuel copy := by
  intro fuel
  induction fuel with
  | zero => intro copy pad; rfl
  | succ f ih =>
    intro copy pad
    rw [splitWordsGo, wrapSpecLines]
    by_cases h : copy.length ≤ width
    · rw [if_neg (Nat.not_lt_of_le h), if_pos h]
      simp [joinPadded]
    · rw [if_pos (Nat.lt_of_not_le h), if_neg h]
      cases hfind : findLastSpace (copy.take width) with
      | some i =>
        dsimp only
        rw [ih (copy.drop (i + 1)) padStr]
        cases hrec : wrapSpecLines width f (copy.drop (i + 1)) with
        | none => rfl
        | some ls =>
          have hne : ls ≠ [] := wrapSpecLines_ne_nil hrec
          simp [joinPadded_cons_of_ne_nil padStr _ hne]
      | none =>
        dsimp only
        rw [ih (copy.drop width) padStr]
        cases hrec : wrapSpecLines width f (copy.drop width) with
        | none => rfl
        | some ls =>
          have hne : ls ≠ [] := wrapSpecLines_ne_nil hrec
          simp [joinPadded_cons_of_ne_nil padStr _ hne]

theorem splitWordsGo_isSome_of_pos {width : Nat} (hw : 1 ≤ width) (padStr : List Char) :
    ∀ (fuel : Nat) (copy pad : List Char), copy.length < fuel →
      ∃ out, splitWordsGo width padStr fuel copy pad = some out := by
  intro fuel
  induction fuel with
  | zero =>
    intro copy pad h
    exact absurd h (Nat.not_lt_zero _)
  | succ f ih =>
    intro copy pad h
    rw [splitWordsGo]
    by_cases hlen : width < copy.length
    · rw [if_pos hlen]
      cases hfind : findLastSpace (copy.take width) with
      | some i =>
        have hlt : (copy.drop (i + 1)).length < f := by
          have := findLastSpace_lt_length hfind
          simp only [List.length_drop]
          omega
        obtain ⟨out, hout⟩ := ih (copy.drop (i + 1)) padStr hlt
        exact ⟨_, by dsimp only; rw [hout]; rfl⟩
      | none =>
        have hlt : (copy.drop width).length < f := by
          simp only [List.length_drop]
          omega
        obtain ⟨out, hout⟩ := ih (copy.drop width) padStr hlt
        exact ⟨_, by dsimp only; rw [hout]; rfl⟩
    · rw [if_neg hlen]
      exact ⟨_, rfl⟩

theorem wrapSpecLines_of_no_space {width : Nat} (hw : 1 ≤ width) :
    ∀ (fuel : Nat) (text : List Char), ' ' ∉ text → text.length < fuel →
      wrapSpecLines width fuel text = some (chunksGo width fuel text) := by
  intro fuel
  induction fuel with
  | zero =>
    intro text _ h
    exact absurd h (Nat.not_lt_zero _)
  | succ f ih =>
    intro text hsp h
    rw [wrapSpecLines, chunksGo]
    by_cases hlen : text.length ≤ width
    · rw [if_pos hlen, if_pos hlen]
    · rw [if_neg hlen, if_neg hlen]
      have hsp₂ : ' ' ∉ text.take width := fun hh => hsp (List.take_subset width text hh)
      rw [findLastSpace_eq_none_of_not_mem hsp₂]
      dsimp only
      have hlt : (text.drop width).length < f := by
        simp only [List.length_drop]
        omega
      have hspd : ' ' ∉ text.drop width := fun hh => hsp (List.drop_subset width text hh)
      rw [ih (text.drop width) hspd hlt]
      rfl

theorem chunksGo_flatten (width : Nat) :
    ∀ (fuel : Nat) (l : List Char), (chunksGo width fuel l).flatten = l := by
  intro fuel
  induction fuel with
  | zero => intro l; simp [chunksGo]
  | succ f ih =>
    intro l
    rw [chunksGo]
    by_cases hlen : l.length ≤ width
    · rw [if_pos hlen]
      simp
    · rw [if_neg hlen]
      simp [ih (l.drop width)]

/-- Counterexample to C8 as stated: at width `W = 0` (allowed by the
claim's "for every width") the loop makes no progress — `block` is empty,
contains no space, and `copy = copy.substr(0)` leaves `copy` unchanged —
so the C++ never terminates on any non-empty input.  In the fuel model no
output is produced; in particular the claimed wrapped output is not. -/
theorem splitWords_width_zero_cex :
    splitWords ['a', 'b'] 0 [] = none ∧
    splitWords ['a', 'b'] 0 [] ≠ some (joinPadded [] (chunks 0 ['a', 'b'])) := by
  exact ⟨rfl, by decide⟩

/-- C8 (amended, width ≥ 1): `splitWords` implements the spec's word-wrap
algorithm exactly (first conjunct: equality with the spec-worded
`wrapSpec`, which covers breaking at the last space of each width-bounded
prefix with the space discarded, and the padding discipline of first line
unpadded / later lines prefixed); it terminates for every positive width
(second conjunct); on space-free input it hard-breaks exactly at the
width boundary (third conjunct); and the chunks carry every character
exactly once — nothing lost or duplicated across breaks (fourth
conjunct). -/
theorem splitWords_wraps :
    (∀ (value : List Char) (width : Nat) (padStr : List Char),
        splitWords value width padStr = wrapSpec value width padStr) ∧
    (∀ (value : List Char) (width : Nat) (padStr : List Char), 1 ≤ width →
        ∃ out, splitWords value width padStr = some out) ∧
    (∀ (value : List Char) (width : Nat) (padStr : List Char), 1 ≤ width →
        ' ' ∉ value →
        splitWords value width padStr =
          some (joinPadded padStr (chunks width value))) ∧
    (∀ (value : List Char) (width : Nat), (chunks width value).flatten = value) := by
  refine ⟨?_, ?_, ?_, ?_⟩
  · intro value width padStr
    rw [splitWords, wrapSpec, splitWordsGo_eq_wrapSpecLines]
    cases wrapSpecLines width (value.length + 1) value with
    | none => rfl
    | some ls => simp
  · intro value width padStr hw
    exact splitWordsGo_isSome_of_pos hw padStr (value.length + 1) value []
      (Nat.lt_succ_self _)
  · intro value width padStr hw hsp
    rw [splitWords, splitWordsGo_eq_wrapSpecLines,
      wrapSpecLines_of_no_space hw (value.length + 1) value hsp (Nat.lt_succ_self _)]
    rw [chunks]
    rfl
  · intro value width
    exact chunksGo_flatten width (value.length + 1) value

/-- Witness for C8's amended theorem at closed inputs: `ab cd` soft-breaks
at the space; the space-free `abcd` hard-breaks exactly at width 3 with
padding `_` on the continuation line and no character lost. -/
theorem splitWords_wraps_witness :
    splitWords ['a', 'b', ' ', 'c', 'd'] 3 ['_'] =
      wrapSpec ['a', 'b', ' ', 'c', 'd'] 3 ['_'] ∧
    (1 : Nat) ≤ 3 ∧
    ' ' ∉ (['a', 'b', 'c', 'd'] : List Char) ∧
    splitWords ['a', 'b', 'c', 'd'] 3 ['_'] =
      some (joinPadded ['_'] (chunks 3 ['a', 'b', 'c', 'd'])) ∧
    (chunks 3 ['a', 'b', 'c', 'd']).flatten = ['a', 'b', 'c', 'd'] := by
  exact ⟨splitWords_wraps.1 ['a', 'b', ' ', 'c', 'd'] 3 ['_'], by decide, by decide,
    splitWords_wraps.2.2.1 ['a', 'b', 'c', 'd'] 3 ['_'] (by decide) (by decide),
    splitWords_wraps.2.2.2 ['a', 'b', 'c', 'd'] 3⟩

/-- C5: round-trip.  When `parse` returns `PARSED_OK`, every option
reachable through the alias index either was never matched (its state is
untouched), or carries, slot by slot, exactly the tokens that appeared at
the corresponding positions of the input vector immediately after the
flag token of its last occurrence: the j-th slot reads back — both by
direct indexing and through alias lookup plus the slot id — the token at
`argv` position `pre.length + 2 + j`, where `pre` is the part of the
token stream scanned before that occurrence's flag, and no later flag
token of the scan resolves to this option (`NoMatchFrom`). -/
theorem parse_ok_roundtrip (p : Parser) (argv : List String) (p' : Parser)
    (hparse : parse p argv = (PARSED_OK, p'))
    (al : String) (idx : Nat) (o : Opt)
    (hal : mapFind p.optionsMap al = some idx)
    (hget : p.options[idx]? = some o)
    (hnd : (o.args.map Argument.id).Nodup) :
    ∃ o', p'.options[idx]? = some o' ∧ p'.lookupOpt al = some o' ∧
      ((o' = o ∧ NoMatchFrom p.optionsMap idx (argv.drop 1) p.options) ∨
       (∃ (pre : List String) (a : String) (rest : List String)
          (s : List Opt) (oS : Opt),
          argv.drop 1 = pre ++ a :: rest ∧
          ScanReaches p.optionsMap (argv.drop 1) p.options (a :: rest) s ∧
          mapFind p.optionsMap a = some idx ∧
          s[idx]? = some oS ∧
          o'.provided = true ∧
          (∀ (j : Nat) (aj : Argument), o'.args[j]? = some aj →
            rest[j]? = some aj.value ∧
            argv[pre.length + 2 + j]? = some aj.value ∧
            o'.value aj.id = some aj.value) ∧
          NoMatchFrom p.optionsMap idx (rest.drop oS.args.length)
            (s.set idx
              { oS with
                args := fillValues oS.args rest, provided := true }))) := by
  obtain ⟨hscan, hfm, hp'⟩ := parse_ok_inv hparse
  have hmap : p'.optionsMap = p.optionsMap := by rw [hp']
  obtain ⟨o', hget', hdisj⟩ :=
    scanGo_ok_last_match p.optionsMap (argv.drop 1).length (argv.drop 1)
      p.options p'.options hscan idx o hget
  have hlook : p'.lookupOpt al = some o' := by
    rw [Parser.lookupOpt, hmap, hal]
    exact hget'
  refine ⟨o', hget', hlook, ?_⟩
  rcases hdisj with ⟨ho', hnm⟩ | ⟨pre, a, rest, s, oS, hdecomp, hreach, hfind,
      hgetS, hidsS, hlenS, hprov', hids', hvals', hnm⟩
  · exact Or.inl ⟨ho', hnm⟩
  · refine Or.inr ⟨pre, a, rest, s, oS, hdecomp, hreach, hfind, hgetS, hprov',
      ?_, hnm⟩
    have hlen_o' : o'.args.length = oS.args.length := by
      have hh := congrArg List.length hvals'
      simp only [List.length_map, List.length_take] at hh
      rw [hh]
      exact Nat.min_eq_left hlenS
    intro j aj hj
    have hjlt : j < o'.args.length := by
      rcases List.getElem?_eq_some.mp hj with ⟨hlt, _⟩
      exact hlt
    have hjk : j < oS.args.length := hlen_o' ▸ hjlt
    have hrestj : rest[j]? = some aj.value := by
      have hmapj : (o'.args.map Argument.value)[j]? = some aj.value := by
        rw [List.getElem?_map, hj]
        rfl
      rw [hvals', List.getElem?_take, if_pos hjk] at hmapj
      exact hmapj
    refine ⟨hrestj, ?_, ?_⟩
    · have h1 : (argv.drop 1)[pre.length + (1 + j)]? = rest[j]? := by
        rw [hdecomp,
          List.getElem?_append_right (Nat.le_add_right pre.length (1 + j)),
          Nat.add_sub_cancel_left, Nat.add_comm 1 j, List.getElem?_cons_succ]
      rw [List.getElem?_drop] at h1
      have hidxeq : 1 + (pre.length + (1 + j)) = pre.length + 2 + j := by omega
      rw [hidxeq] at h1
      rw [h1]
      exact hrestj
    · have hnd' : (o'.args.map Argument.id).Nodup := by
        rw [hids']
        exact hnd
      exact value_of_nodup hnd' hj

/-- Witness for C5 at a closed input: parsing
`["prog", "-f", "v1", "v2"]` against the registry holding `optPlain`
succeeds, and the theorem applies with its hypotheses discharged by
evaluation. -/
theorem parse_ok_roundtrip_witness :
    parse pPlain ["prog", "-f", "v1", "v2"] =
      (PARSED_OK, { pPlain with options := [optPlainFilled] }) ∧
    mapFind pPlain.optionsMap "-f" = some 0 ∧
    pPlain.options[0]? = some optPlain ∧
    (optPlain.args.map Argument.id).Nodup ∧
    (∃ o', ({ pPlain with options := [optPlainFilled] } : Parser).options[0]? =
        some o' ∧
      ({ pPlain with options := [optPlainFilled] } : Parser).lookupOpt "-f" =
        some o' ∧
      ((o' = optPlain ∧
        NoMatchFrom pPlain.optionsMap 0
          ((["prog", "-f", "v1", "v2"] : List String).drop 1) pPlain.options) ∨
       (∃ (pre : List String) (a : String) (rest : List String)
          (s : List Opt) (oS : Opt),
          (["prog", "-f", "v1", "v2"] : List String).drop 1 = pre ++ a :: rest ∧
          ScanReaches pPlain.optionsMap
            ((["prog", "-f", "v1", "v2"] : List String).drop 1) pPlain.options
            (a :: rest) s ∧
          mapFind pPlain.optionsMap a = some 0 ∧
          s[0]? = some oS ∧
          o'.provided = true ∧
          (∀ (j : Nat) (aj : Argument), o'.args[j]? = some aj →
            rest[j]? = some aj.value ∧
            (["prog", "-f", "v1", "v2"] : List String)[pre.length + 2 + j]? =
              some aj.value ∧
            o'.value aj.id = some aj.value) ∧
          NoMatchFrom pPlain.optionsMap 0 (rest.drop oS.args.length)
            (s.set 0
              { oS with
                args := fillValues oS.args rest, provided := true })))) := by
  refine ⟨rfl, rfl, rfl, by decide, ?_⟩
  exact parse_ok_roundtrip pPlain ["prog", "-f", "v1", "v2"]
    { pPlain with options := [optPlainFilled] } rfl "-f" 0 optPlain rfl rfl
    (by decide)

end CliParser
